import Mathlib

/-!
Verification development for the column-lineage extraction engine
(`app.py` of the data-lineage repository).

The Python source is shallowly embedded: every regex used by the source is
replaced by an explicit character-level scanner with the same semantics
(leftmost, non-overlapping matches, greedy repetition over disjoint
character classes), and Python dictionaries are embedded as association
lists with replace-on-insert semantics.  Identifier case folding
(`str.lower` / `str.upper`) is embedded for the ASCII range, which covers
SQL identifiers.
-/

/-! ## Character classes and case folding -/

/-- Python `\w` on ASCII text: letters, digits and underscore. -/
def wordChar (c : Char) : Bool :=
  c.isAlpha || c.isDigit || c = '_'

/-- Python `\s` on ASCII text (space, tab, newline, carriage return). -/
def wsChar (c : Char) : Bool :=
  c.isWhitespace

/-- ASCII lower-casing of one character (Python `str.lower` on identifiers). -/
def lowerChar (c : Char) : Char :=
  if 'A' ≤ c ∧ c ≤ 'Z' then Char.ofNat (c.toNat + 32) else c

/-- ASCII upper-casing of one character (Python `str.upper` on identifiers). -/
def upperChar (c : Char) : Char :=
  if 'a' ≤ c ∧ c ≤ 'z' then Char.ofNat (c.toNat - 32) else c

/-- Python `str.lower` (ASCII range). -/
def lowerStr (s : String) : String :=
  ⟨s.data.map lowerChar⟩

/-- Python `str.upper` (ASCII range). -/
def upperStr (s : String) : String :=
  ⟨s.data.map upperChar⟩

/-- Strip whitespace from both ends of a character list (Python `str.strip`). -/
def trimWsL (cs : List Char) : List Char :=
  ((cs.dropWhile wsChar).reverse.dropWhile wsChar).reverse

/-- Strip trailing semicolons (Python `str.rstrip(';')`). -/
def rstripSemi (cs : List Char) : List Char :=
  (cs.reverse.dropWhile (fun c => c = ';')).reverse

/-! ## `_split_csv`: parenthesis-aware top-level comma splitting -/

/--
Worker for `_split_csv` (app.py lines 217-230): `depth` is incremented on
`(` and decremented-but-clamped-at-zero on `)` (`Nat` subtraction clamps
exactly as Python's `max(0, depth-1)` does); a comma at depth 0 closes the
current buffer as a part; the final buffer is appended only when non-empty.
-/
def splitCsvAux (depth : Nat) (buf : List Char) : List Char → List (List Char)
  | [] => if buf = [] then [] else [buf.reverse]
  | c :: cs =>
    if c = '(' then splitCsvAux (depth + 1) (c :: buf) cs
    else if c = ')' then splitCsvAux (depth - 1) (c :: buf) cs
    else if c = ',' ∧ depth = 0 then buf.reverse :: splitCsvAux 0 [] cs
    else splitCsvAux depth (c :: buf) cs

/-- `_split_csv` (app.py lines 217-230). -/
def splitCsv (text : String) : List String :=
  (splitCsvAux 0 [] text.data).map (fun l => ⟨l⟩)

/-- `true` iff the text ends with a comma that sits at (clamped) depth 0,
tracking depth exactly as `splitCsvAux` does. -/
def endsTopComma (depth : Nat) : List Char → Bool
  | [] => false
  | c :: cs =>
    if c = '(' then endsTopComma (depth + 1) cs
    else if c = ')' then endsTopComma (depth - 1) cs
    else if c = ',' ∧ depth = 0 then (cs.isEmpty || endsTopComma 0 cs)
    else endsTopComma depth cs

/-- Number of commas at (clamped) depth 0, tracking depth as `splitCsvAux` does. -/
def topCommaCount (depth : Nat) : List Char → Nat
  | [] => 0
  | c :: cs =>
    if c = '(' then topCommaCount (depth + 1) cs
    else if c = ')' then topCommaCount (depth - 1) cs
    else if c = ',' ∧ depth = 0 then 1 + topCommaCount 0 cs
    else topCommaCount depth cs

/-- Join character-list parts with a comma separator. -/
def joinC : List (List Char) → List Char
  | [] => []
  | [x] => x
  | x :: xs => x ++ ',' :: joinC xs

/-- Join string parts with a comma separator. -/
def joinComma : List String → String
  | [] => ""
  | [s] => s
  | s :: ss => s ++ "," ++ joinComma ss

/-! ## Literal and keyword matching (embedding the source's regexes) -/

/-- Match an exact literal at the head of the input; return the remainder. -/
def litMatch : List Char → List Char → Option (List Char)
  | [], rest => some rest
  | _ :: _, [] => none
  | k :: ks, c :: cs => if c = k then litMatch ks cs else none

/-- Case-insensitive literal match at the head of the input (the pattern is
given in upper case); return the remainder. -/
def ciLit : List Char → List Char → Option (List Char)
  | [], rest => some rest
  | _ :: _, [] => none
  | k :: ks, c :: cs => if upperChar c = k then ciLit ks cs else none

/-- Python `needle in haystack` (substring containment). -/
def subHit (needle : List Char) : List Char → Bool
  | [] => decide (needle = [])
  | c :: cs => (litMatch needle (c :: cs)).isSome || subHit needle cs

/-- Search for a word-boundary-anchored occurrence of one of `kws` followed
by `\s*(` — the source's `\b(COUNT|SUM|AVG|MIN|MAX)\s*\(` and
`\b(ROUND|COALESCE|NVL|CAST|ABS)\s*\(` tests (app.py lines 281, 284).
`prevW` records whether the previous character was a word character. -/
def fnHitAux (kws : List (List Char)) (prevW : Bool) : List Char → Bool
  | [] => false
  | c :: cs =>
    ((!prevW) && kws.any (fun kw =>
      match litMatch kw (c :: cs) with
      | some rest =>
        match rest.dropWhile wsChar with
        | '(' :: _ => true
        | _ => false
      | none => false))
    || fnHitAux kws (wordChar c) cs

/-- `\b`-delimited case-insensitive keyword search that splits the input at
the first bounded occurrence: returns (text before the keyword, text after
it).  A candidate occurrence needs a non-word character (or the start, per
`prevW`) before it and a non-word character (or the end) after it. -/
def boundedKwSplit (kw : List Char) (prevW : Bool) :
    List Char → Option (List Char × List Char)
  | [] => none
  | c :: cs =>
    match (if prevW then none else
      match ciLit kw (c :: cs) with
      | some rest =>
        match rest with
        | [] => some rest
        | r :: _ => if wordChar r then none else some rest
      | none => none) with
    | some rest => some ([], rest)
    | none =>
      match boundedKwSplit kw (wordChar c) cs with
      | some (pre, rest) => some (c :: pre, rest)
      | none => none

/-- The source's `\bSELECT\b(.*?)\bFROM\b` (app.py line 266): the span between
the first word-bounded `SELECT` and the first word-bounded `FROM` after it. -/
def selectFromSpan (cs : List Char) : Option (List Char) :=
  match boundedKwSplit ['S','E','L','E','C','T'] false cs with
  | none => none
  | some (_, afterSel) =>
    match boundedKwSplit ['F','R','O','M'] true afterSel with
    | some (inner, _) => some inner
    | none => none

/-- The source's `\bAS\s+(\w+)\s*$` search (app.py line 274): find the first
word-bounded `AS` followed by whitespace, a word token, optional whitespace
and the end of the expression; return (text before the match, the token). -/
def asAliasSplit (prevW : Bool) : List Char → Option (List Char × List Char)
  | [] => none
  | c :: cs =>
    match (if prevW then none else
      match ciLit ['A','S'] (c :: cs) with
      | some rest =>
        let s1 := List.span wsChar rest
        if s1.1 = [] then none else
        let s2 := List.span wordChar s1.2
        if s2.1 = [] then none else
        if s2.2.dropWhile wsChar = [] then some s2.1 else none
      | none => none) with
    | some tok => some ([], tok)
    | none =>
      match asAliasSplit (wordChar c) cs with
      | some (pre, tok) => some (c :: pre, tok)
      | none => none

/-- The source's `re.findall(r'\b(\w+)\b', part)`: all maximal word runs.
`acc` is the (reversed) run currently being read. -/
def wordRunsAux (acc : List Char) : List Char → List (List Char)
  | [] => if acc = [] then [] else [acc.reverse]
  | c :: cs =>
    if wordChar c then wordRunsAux (c :: acc) cs
    else if acc = [] then wordRunsAux [] cs
    else acc.reverse :: wordRunsAux [] cs

/-- All maximal word runs of a character list. -/
def wordRuns (cs : List Char) : List (List Char) :=
  wordRunsAux [] cs

/-- Scanner state for `re.findall(r'(\w+)\.(\w+)', expr)`. -/
inductive RefSt where
  | idle : RefSt
  | w1 : List Char → RefSt
  | dot : List Char → RefSt
  | w2 : List Char → List Char → RefSt

/-- The source's qualified-reference scan `(\w+)\.(\w+)` (app.py line 286):
a maximal word run, a dot, and a maximal word run, matched left to right
without overlap.  Runs under construction are kept reversed. -/
def dottedRefsAux : RefSt → List Char → List (String × String)
  | .idle, [] => []
  | .w1 _, [] => []
  | .dot _, [] => []
  | .w2 a b, [] => [(⟨a.reverse⟩, ⟨b.reverse⟩)]
  | .idle, c :: cs =>
    if wordChar c then dottedRefsAux (.w1 [c]) cs else dottedRefsAux .idle cs
  | .w1 a, c :: cs =>
    if wordChar c then dottedRefsAux (.w1 (c :: a)) cs
    else if c = '.' then dottedRefsAux (.dot a) cs
    else dottedRefsAux .idle cs
  | .dot a, c :: cs =>
    if wordChar c then dottedRefsAux (.w2 a [c]) cs else dottedRefsAux .idle cs
  | .w2 a b, c :: cs =>
    if wordChar c then dottedRefsAux (.w2 a (c :: b)) cs
    else (⟨a.reverse⟩, ⟨b.reverse⟩) :: dottedRefsAux .idle cs

/-- All `alias.column` references inside an expression. -/
def dottedRefs (cs : List Char) : List (String × String) :=
  dottedRefsAux .idle cs

/-! ## `FROM`/`JOIN` clause scanning (`_build_alias_map`) -/

/-- One match of the source's pattern
`(?:FROM|JOIN)\s+(\w+)(?:\s+AS\s+(\w+)|\s+(\w+))?` (app.py line 258):
the table token (group 1, original case) and the alias token (group 2 or 3),
when one is present. -/
structure FJMatch where
  table : String
  aliasTok : Option String
deriving DecidableEq

/-- Attempt the `FROM`/`JOIN` pattern at the head of the input; on success
return the match and the remainder after it.  The optional
`(?:\s+AS\s+(\w+)|\s+(\w+))?` group tries the `AS` alternative first, then a
bare alias token, then matches nothing — exactly the regex engine's
preference order (the repetitions involved range over disjoint character
classes, so greedy maximal runs are faithful). -/
def tryMatchFJ (cs : List Char) : Option (FJMatch × List Char) :=
  match (match ciLit ['F','R','O','M'] cs with
         | some r => some r
         | none => ciLit ['J','O','I','N'] cs) with
  | none => none
  | some r0 =>
    let s1 := List.span wsChar r0
    if s1.1 = [] then none else
    let s2 := List.span wordChar s1.2
    if s2.1 = [] then none else
    let tbl : List Char := s2.1
    let r2 := s2.2
    match (
      let sa := List.span wsChar r2
      if sa.1 = [] then none else
      match ciLit ['A','S'] sa.2 with
      | some rb =>
        let sb := List.span wsChar rb
        if sb.1 = [] then none else
        let sc := List.span wordChar sb.2
        if sc.1 = [] then none else some (sc.1, sc.2)
      | none => none) with
    | some (tok, rest) => some (⟨⟨tbl⟩, some ⟨tok⟩⟩, rest)
    | none =>
      match (
        let sa := List.span wsChar r2
        if sa.1 = [] then none else
        let sb := List.span wordChar sa.2
        if sb.1 = [] then none else some (sb.1, sb.2)) with
      | some (tok, rest) => some (⟨⟨tbl⟩, some ⟨tok⟩⟩, rest)
      | none => some (⟨⟨tbl⟩, none⟩, r2)

/-- `re.finditer` over the `FROM`/`JOIN` pattern: scan left to right; after a
match continue after it, after a failed attempt advance one character.  The
fuel equals the input length, which bounds the number of steps since every
step consumes at least one character. -/
def scanFJAux : Nat → List Char → List FJMatch
  | 0, _ => []
  | _ + 1, [] => []
  | fuel + 1, c :: cs =>
    match tryMatchFJ (c :: cs) with
    | some (m, rest) => m :: scanFJAux fuel rest
    | none => scanFJAux fuel cs

/-- All `FROM`/`JOIN` matches of a SQL text, in order. -/
def scanFJ (s : String) : List FJMatch :=
  scanFJAux s.data.length s.data

/-! ## Association lists with Python `dict` semantics -/

/-- Python `dict` assignment `m[k] = v`: replace any previous binding. -/
def dictInsert (m : List (String × List String)) (k : String) (v : List String) :
    List (String × List String) :=
  (m.filter (fun e => e.1 ≠ k)) ++ [(k, v)]

/-- Python `dict` lookup `m.get(k)`. -/
def dictLookup (m : List (String × List String)) (k : String) :
    Option (List String) :=
  (m.find? (fun e => e.1 = k)).map (fun e => e.2)

/-- Python `k in m`. -/
def containsKey (m : List (String × List String)) (k : String) : Bool :=
  (dictLookup m k).isSome

/-- Build a Python `dict` from a key/value sequence (later entries win). -/
def pyDict (l : List (String × List String)) : List (String × List String) :=
  l.foldl (fun m kv => dictInsert m kv.1 kv.2) []

/-! ## The lineage parser -/

/-- `LineageParser` (app.py lines 233-235): holds the resolution index,
lower-cased. -/
structure LineageParser where
  catalog : List (String × List String)
deriving DecidableEq

/-- `LineageParser.__init__`: `{k.lower(): [c.lower() for c in v] for k, v in
catalog.items()}` — a dict comprehension, i.e. sequential inserts where a
later lowered key overrides an earlier one. -/
def LineageParser.init (catalog : List (String × List String)) : LineageParser :=
  ⟨catalog.foldl (fun m kv => dictInsert m (lowerStr kv.1) (kv.2.map lowerStr)) []⟩

/-- One entry of the alias map.  The map is built front-consed so that
`lookupAlias` (plain `find?`) realises Python's last-write-wins `dict`. -/
def lookupAlias (m : List (String × String)) (k : String) : Option String :=
  (m.find? (fun e => e.1 = k)).map (fun e => e.2)

/-- Fold one `FROM`/`JOIN` match into the alias map (`_build_alias_map` loop
body, app.py lines 259-262): only tables present in the catalog register an
entry; the alias defaults to the table token itself. -/
def aliasStep (cat : List (String × List String)) (m : List (String × String))
    (fm : FJMatch) : List (String × String) :=
  let table := lowerStr fm.table
  if containsKey cat table then
    (lowerStr (fm.aliasTok.getD fm.table), table) :: m
  else m

/-- Fold a list of matches into an alias map. -/
def aliasFold (cat : List (String × List String)) (ms : List FJMatch) :
    List (String × String) :=
  ms.foldl (aliasStep cat) []

/-- `_build_alias_map` (app.py lines 256-263). -/
def buildAliasMap (cat : List (String × List String)) (sql : String) :
    List (String × String) :=
  aliasFold cat (scanFJ sql)

/-- `_normalize` (app.py lines 252-254): strip a leading
`CREATE [OR REPLACE] VIEW <name> AS` prologue, then strip surrounding
whitespace and trailing semicolons.  The optional `OR REPLACE` group is
committed greedily; when it matches, the fallback alternative (skipping it)
necessarily fails on `VIEW`, so the greedy choice is faithful to the regex. -/
def stripViewPrologueL (cs : List Char) : List Char :=
  match ciLit ['C','R','E','A','T','E'] (cs.dropWhile wsChar) with
  | none => cs
  | some r1 =>
    let s1 := List.span wsChar r1
    if s1.1 = [] then cs else
    let r2 := s1.2
    let r3 :=
      match ciLit ['O','R'] r2 with
      | some ra =>
        let sa := List.span wsChar ra
        if sa.1 = [] then r2 else
        match ciLit ['R','E','P','L','A','C','E'] sa.2 with
        | some rb =>
          let sb := List.span wsChar rb
          if sb.1 = [] then r2 else sb.2
        | none => r2
      | none => r2
    match ciLit ['V','I','E','W'] r3 with
    | none => cs
    | some r4 =>
      let s4 := List.span wsChar r4
      if s4.1 = [] then cs else
      let s5 := List.span wordChar s4.2
      if s5.1 = [] then cs else
      let s6 := List.span wsChar s5.2
      if s6.1 = [] then cs else
      match ciLit ['A','S'] s6.2 with
      | none => cs
      | some r7 => r7.dropWhile wsChar

/-- `_normalize` as a string transformer. -/
def pyNormalize (sql : String) : String :=
  ⟨rstripSemi (trimWsL (stripViewPrologueL sql.data))⟩

/-- The aggregate function keywords `COUNT|SUM|AVG|MIN|MAX` (app.py line 281). -/
def aggKws : List (List Char) :=
  [['C','O','U','N','T'], ['S','U','M'], ['A','V','G'], ['M','I','N'], ['M','A','X']]

/-- The computed-expression keywords `ROUND|COALESCE|NVL|CAST|ABS`
(app.py line 284). -/
def compKws : List (List Char) :=
  [['R','O','U','N','D'], ['C','O','A','L','E','S','C','E'],
   ['N','V','L'], ['C','A','S','T'], ['A','B','S']]

/-- The edge-type classification of one select-list expression (app.py lines
280-285), in the source's precedence order: the aggregate test, the `CASE`
test and the computed test run on the upper-cased expression, the `||` test
on the expression itself. -/
def classifyExpr (expr : String) : String :=
  let eu := upperStr expr
  if fnHitAux aggKws false eu.data then "aggregate"
  else if subHit ['C','A','S','E'] eu.data then "case"
  else if subHit ['|','|'] expr.data then "concat"
  else if fnHitAux compKws false eu.data then "computed"
  else "direct"

/-- One extracted output column: its alias, its qualified references and its
edge type (the dict built at app.py line 286). -/
structure OutCol where
  calias : String
  refs : List (String × String)
  etype : String
deriving DecidableEq

/-- `_extract_columns` (app.py lines 265-287). -/
def extractColumns (sql : String) : List OutCol :=
  match selectFromSpan sql.data with
  | none => []
  | some inner =>
    (splitCsvAux 0 [] inner).filterMap (fun part0 =>
      let part := trimWsL part0
      if part = [] then none else
      match asAliasSplit false part with
      | some (pre, tok) =>
        let expr := trimWsL pre
        some ⟨lowerStr ⟨tok⟩, dottedRefs expr, classifyExpr ⟨expr⟩⟩
      | none =>
        let al :=
          match (wordRuns part).getLast? with
          | some t => lowerStr ⟨t⟩
          | none => "unknown"
        some ⟨al, dottedRefs part, classifyExpr ⟨part⟩⟩)

/-- `_resolve` (app.py lines 289-297): keep a qualified reference only when
its alias is registered, the table is a catalog key and the (lower-cased)
column is among that table's columns; deduplicate `(table, column)` pairs.
The source appends to `resolved` exactly when it adds to `seen`, so a single
deduplicated list is the faithful state. -/
def resolveStep (cat : List (String × List String)) (am : List (String × String))
    (acc : List (String × String)) (r : String × String) : List (String × String) :=
  match lookupAlias am (lowerStr r.1) with
  | none => acc
  | some real =>
    if real = "" then acc else
    match dictLookup cat real with
    | none => acc
    | some cols =>
      if lowerStr r.2 ∈ cols then
        (if (real, lowerStr r.2) ∈ acc then acc else acc ++ [(real, lowerStr r.2)])
      else acc

/-- The fold realising `_resolve`. -/
def resolve (cat : List (String × List String)) (refs : List (String × String))
    (am : List (String × String)) : List (String × String) :=
  refs.foldl (resolveStep cat am) []

/-- `LineageEdge` (the dict built at app.py lines 247-249). -/
structure Edge where
  source_node : String
  source_column : String
  target_node : String
  target_column : String
  edge_type : String
deriving DecidableEq

/-- The dedup key quadruple used by `parse` (app.py line 244). -/
def edgeQuad (e : Edge) : String × String × String × String :=
  (e.source_node, e.source_column, e.target_node, e.target_column)

/-- Inner loop of `parse` for one output column: emit one edge per resolved
source, skipping quadruples already seen (app.py lines 243-249).  The state
pairs the emitted edges with the `seen` set (as a list). -/
def emitStep (target : String) (col : OutCol)
    (st2 : List Edge × List (String × String × String × String))
    (tc : String × String) :
    List Edge × List (String × String × String × String) :=
  if (tc.1, tc.2, target, col.calias) ∈ st2.2 then st2
  else (st2.1 ++ [⟨tc.1, tc.2, target, col.calias, col.etype⟩],
        st2.2 ++ [(tc.1, tc.2, target, col.calias)])

/-- The inner fold of `parse` over one column's resolved sources. -/
def emitForCol (target : String) (col : OutCol)
    (srcs : List (String × String))
    (st : List Edge × List (String × String × String × String)) :
    List Edge × List (String × String × String × String) :=
  srcs.foldl (emitStep target col) st

/-- `LineageParser.parse` (app.py lines 237-250). -/
def parseStep (cat : List (String × List String)) (am : List (String × String))
    (target : String)
    (st : List Edge × List (String × String × String × String)) (col : OutCol) :
    List Edge × List (String × String × String × String) :=
  emitForCol target col (resolve cat col.refs am) st

/-- `LineageParser.parse` (app.py lines 237-250). -/
def LineageParser.parse (p : LineageParser) (target sql : String) : List Edge :=
  let s := pyNormalize sql
  let am := buildAliasMap p.catalog s
  let cols := extractColumns s
  (cols.foldl (parseStep p.catalog am target) ([], [])).1

/-! ## Catalog objects and the extraction run (`_run_lineage`) -/

/-- One column descriptor as supplied by a connector. -/
structure ColumnD where
  name : String
  data_type : String
  is_pk : Bool
deriving DecidableEq

/-- One relational object as supplied by a connector (`name`, `type`,
`columns`, `sql`). -/
structure DbObject where
  name : String
  otype : String
  columns : List ColumnD
  sql : Option String
deriving DecidableEq

/-- The connector's `get_all_objects()` result. -/
structure AllObjects where
  tables : List DbObject
  views : List DbObject
  stored_procedures : List DbObject
deriving DecidableEq

/-- One node of the produced graph (app.py lines 305-307; the display-only
`x`/`y` placeholders are omitted). -/
structure GraphNode where
  id : String
  label : String
  ntype : String
  columns : List ColumnD
deriving DecidableEq

/-- The produced lineage graph: nodes, and edges paired with their
sequential identifier. -/
structure Graph where
  nodes : List GraphNode
  edges : List (String × Edge)
deriving DecidableEq

/-- `build_graph` (app.py lines 304-309). -/
def build_graph (objs : AllObjects) (edges : List Edge) : Graph :=
  { nodes := (objs.tables ++ objs.views ++ objs.stored_procedures).map
      (fun o => ⟨o.name, o.name, o.otype, o.columns⟩)
  , edges := edges.enum.map (fun p => ("e" ++ toString p.1, p.2)) }

/-- One entry of a connector's explicit lineage list: a JSON object whose
fields may each be absent. -/
structure ExplicitEdge where
  source_object : Option String
  source_node : Option String
  source_column : Option String
  target_object : Option String
  target_node : Option String
  target_column : Option String
  edge_type : Option String
deriving DecidableEq

/-- The explicit-edge conversion of `_run_lineage` (app.py lines 330-334):
object fields fall back from `source_object`/`target_object` to
`source_node`/`target_node` to `''` and are taken verbatim; column fields
default to `''` and are lower-cased; `edge_type` defaults to `'direct'`. -/
def convertExplicit (e : ExplicitEdge) : Edge :=
  { source_node := e.source_object.getD (e.source_node.getD "")
  , source_column := lowerStr (e.source_column.getD "")
  , target_node := e.target_object.getD (e.target_node.getD "")
  , target_column := lowerStr (e.target_column.getD "")
  , edge_type := e.edge_type.getD "direct" }

/-- The per-object parse loop of `_run_lineage` (app.py lines 342-348),
parameterised by the parsing function so that the `try/except` around
`parser.parse` is visible: a `.error` outcome is caught, recorded as the
warning `"<name>: <description>"`, and the loop continues.  Objects whose
`sql` is absent or empty (Python falsiness) are skipped. -/
def aggStep (pf : String → String → Except String (List Edge))
    (st : List Edge × List String) (o : DbObject) : List Edge × List String :=
  match o.sql with
  | none => st
  | some s =>
    if s = "" then st else
    match pf o.name s with
    | .ok es => (st.1 ++ es, st.2)
    | .error m => (st.1, st.2 ++ [o.name ++ ": " ++ m])

/-- The fold realising the per-object parse loop. -/
def aggregateEdges (pf : String → String → Except String (List Edge))
    (objs : List DbObject) : List Edge × List String :=
  objs.foldl (aggStep pf) ([], [])

/-- The resolution index of `_run_lineage` (app.py lines 339-340): a dict
comprehension over tables and views (procedures excluded). -/
def catalogOf (objs : AllObjects) : List (String × List String) :=
  pyDict ((objs.tables ++ objs.views).map
    (fun o => (o.name, o.columns.map (fun c => c.name))))

/-- The `json`-connector branch of `_run_lineage` (app.py lines 326-349):
when the connector supplies a non-empty explicit lineage list, that list
(converted) is the complete edge set and the result carries no warnings;
otherwise every view and stored procedure with SQL text is parsed, with
per-object failures collected as warnings. -/
def runLineageJson (objs : AllObjects) (explicit : List ExplicitEdge) :
    Graph × List String :=
  if explicit ≠ [] then
    (build_graph objs (explicit.map convertExplicit), [])
  else
    let lp := LineageParser.init (catalogOf objs)
    let r := aggregateEdges (fun n s => Except.ok (lp.parse n s))
      (objs.views ++ objs.stored_procedures)
    (build_graph objs r.1, r.2)

/-! ## General fold invariants -/

/-- A property preserved by every step of a left fold holds of the result. -/
theorem foldlInv {α : Type _} {σ : Type _} (l : List α) (f : σ → α → σ)
    (P : σ → Prop) (hstep : ∀ s a, a ∈ l → P s → P (f s a)) :
    ∀ s, P s → P (l.foldl f s) := by
  induction l with
  | nil => intro s hs; exact hs
  | cons a l ih =>
    intro s hs
    exact ih (fun s b hb hPs => hstep s b (List.mem_cons_of_mem a hb) hPs)
      (f s a) (hstep s a (List.mem_cons_self a l) hs)

/-! ## Properties of `_split_csv` -/

/-- `splitCsvAux` returns at least one part on non-empty input. -/
theorem splitCsvAux_ne_nil :
    ∀ (cs : List Char) (depth : Nat) (buf : List Char),
      cs ≠ [] → splitCsvAux depth buf cs ≠ [] := by
  intro cs
  induction cs with
  | nil => intro _ _ h; exact absurd rfl h
  | cons c cs ih =>
    intro depth buf _
    show splitCsvAux depth buf (c :: cs) ≠ []
    rw [splitCsvAux]
    split_ifs with h1 h2 h3
    · cases cs with
      | nil => simp [splitCsvAux]
      | cons d ds => exact ih _ _ (by simp)
    · cases cs with
      | nil => simp [splitCsvAux]
      | cons d ds => exact ih _ _ (by simp)
    · simp
    · cases cs with
      | nil => simp [splitCsvAux]
      | cons d ds => exact ih _ _ (by simp)

/-- `joinC` over a cons with a non-empty tail inserts one comma. -/
theorem joinC_cons (x : List Char) (xs : List (List Char)) (h : xs ≠ []) :
    joinC (x :: xs) = x ++ ',' :: joinC xs := by
  cases xs with
  | nil => exact absurd rfl h
  | cons y ys => rfl

/-- Reconstruction property of the splitter: joining the parts with a comma
recovers the input, up to the single trailing top-level comma whose empty
final segment the source drops. -/
theorem splitCsvAux_joinC :
    ∀ (cs : List Char) (depth : Nat) (buf : List Char),
      (endsTopComma depth cs = true →
        joinC (splitCsvAux depth buf cs) ++ [','] = buf.reverse ++ cs)
      ∧ (endsTopComma depth cs = false →
        joinC (splitCsvAux depth buf cs) = buf.reverse ++ cs) := by
  intro cs
  induction cs with
  | nil =>
    intro depth buf
    constructor
    · intro h; simp [endsTopComma] at h
    · intro _
      show joinC (splitCsvAux depth buf []) = buf.reverse ++ []
      rw [splitCsvAux]
      split_ifs with hb
      · subst hb; simp [joinC]
      · simp [joinC]
  | cons c cs ih =>
    intro depth buf
    rw [splitCsvAux, endsTopComma]
    split_ifs with h1 h2 h3
    · constructor
      · intro h
        have := (ih (depth + 1) (c :: buf)).1 h
        simpa [List.append_assoc] using this
      · intro h
        have := (ih (depth + 1) (c :: buf)).2 h
        simpa [List.append_assoc] using this
    · constructor
      · intro h
        have := (ih (depth - 1) (c :: buf)).1 h
        simpa [List.append_assoc] using this
      · intro h
        have := (ih (depth - 1) (c :: buf)).2 h
        simpa [List.append_assoc] using this
    · obtain ⟨hc, _⟩ := h3
      subst hc
      cases cs with
      | nil =>
        constructor
        · intro _
          simp [splitCsvAux, joinC]
        · intro h; simp at h
      | cons d ds =>
        have hne : splitCsvAux 0 [] (d :: ds) ≠ [] := splitCsvAux_ne_nil _ _ _ (by simp)
        constructor
        · intro h
          simp only [List.isEmpty_cons, Bool.false_or] at h
          rw [joinC_cons _ _ hne]
          have := (ih 0 []).1 h
          simp only [List.reverse_nil, List.nil_append] at this
          simp [List.append_assoc, this]
        · intro h
          simp only [List.isEmpty_cons, Bool.false_or] at h
          rw [joinC_cons _ _ hne]
          have := (ih 0 []).2 h
          simp only [List.reverse_nil, List.nil_append] at this
          simp [this]
    · constructor
      · intro h
        have := (ih depth (c :: buf)).1 h
        simpa [List.append_assoc] using this
      · intro h
        have := (ih depth (c :: buf)).2 h
        simpa [List.append_assoc] using this

/-- Appending strings appends their character lists. -/
theorem strMk_append (a b : List Char) : (⟨a⟩ : String) ++ (⟨b⟩ : String) = ⟨a ++ b⟩ :=
  rfl

/-- Lift `joinC` to strings. -/
theorem joinComma_map (l : List (List Char)) :
    joinComma (l.map (fun c => (⟨c⟩ : String))) = ⟨joinC l⟩ := by
  induction l with
  | nil => rfl
  | cons x xs ih =>
    cases xs with
    | nil => rfl
    | cons y ys =>
      show (⟨x⟩ : String) ++ "," ++ joinComma ((y :: ys).map (fun c => (⟨c⟩ : String)))
        = (⟨x ++ ',' :: joinC (y :: ys)⟩ : String)
      rw [ih, show ("," : String) = (⟨[',']⟩ : String) from rfl, strMk_append,
        strMk_append, List.append_assoc]
      rfl

/-- The number of parts is one more than the number of top-level commas,
minus the dropped empty final segment. -/
theorem splitCsvAux_length :
    ∀ (cs : List Char) (depth : Nat) (buf : List Char),
      (splitCsvAux depth buf cs).length =
        topCommaCount depth cs +
          (if (buf = [] ∧ cs = []) ∨ endsTopComma depth cs = true then 0 else 1) := by
  intro cs
  induction cs with
  | nil =>
    intro depth buf
    by_cases hb : buf = [] <;> simp [splitCsvAux, topCommaCount, endsTopComma, hb]
  | cons c cs ih =>
    intro depth buf
    rw [splitCsvAux, topCommaCount, endsTopComma]
    by_cases h1 : c = '('
    · simp only [if_pos h1]
      rw [ih]
      congr 1
      apply if_congr _ rfl rfl
      simp
    · by_cases h2 : c = ')'
      · simp only [if_neg h1, if_pos h2]
        rw [ih]
        congr 1
        apply if_congr _ rfl rfl
        simp
      · by_cases h3 : c = ',' ∧ depth = 0
        · simp only [if_neg h1, if_neg h2, if_pos h3]
          rw [List.length_cons, ih]
          by_cases hcs : cs = []
          · subst hcs
            simp [topCommaCount, endsTopComma]
          · by_cases he : endsTopComma 0 cs = true <;>
              simp [hcs, he, List.isEmpty_iff] <;> omega
        · simp only [if_neg h1, if_neg h2, if_neg h3]
          rw [ih]
          congr 1
          apply if_congr _ rfl rfl
          simp

/-! ## Properties of `_resolve`, `_build_alias_map` and `parse` -/

/-- Every pair produced by `_resolve` is fully resolved: its table is the
image of a registered alias, it is a key of the catalog, and its (lower-cased)
column belongs to that table's column set. -/
theorem resolve_mem (cat : List (String × List String))
    (refs : List (String × String)) (am : List (String × String)) :
    ∀ tc ∈ resolve cat refs am,
      (∃ a, lookupAlias am a = some tc.1)
      ∧ (∃ cols, dictLookup cat tc.1 = some cols ∧ tc.2 ∈ cols)
      ∧ (∃ w, tc.2 = lowerStr w) := by
  apply foldlInv refs (resolveStep cat am)
    (fun acc => ∀ tc ∈ acc,
      (∃ a, lookupAlias am a = some tc.1)
      ∧ (∃ cols, dictLookup cat tc.1 = some cols ∧ tc.2 ∈ cols)
      ∧ (∃ w, tc.2 = lowerStr w))
  · intro acc r _ hacc tc htc
    revert htc
    unfold resolveStep
    cases hl : lookupAlias am (lowerStr r.1) with
    | none => exact hacc tc
    | some real =>
      by_cases hne : real = ""
      · simp only [if_pos hne]
        exact hacc tc
      · simp only [if_neg hne]
        cases hd : dictLookup cat real with
        | none => exact hacc tc
        | some cols =>
          by_cases hin : lowerStr r.2 ∈ cols
          · simp only [if_pos hin]
            by_cases hdup : (real, lowerStr r.2) ∈ acc
            · simp only [if_pos hdup]
              exact hacc tc
            · simp only [if_neg hdup]
              intro htc
              rcases List.mem_append.mp htc with hold | hnew
              · exact hacc tc hold
              · rcases List.mem_singleton.mp hnew with rfl
                exact ⟨⟨lowerStr r.1, hl⟩, ⟨cols, hd, hin⟩, ⟨r.2, rfl⟩⟩
          · simp only [if_neg hin]
            exact hacc tc
  · intro tc htc; cases htc

/-- Every entry of an alias map built by `aliasFold` has a value that is a
catalog key and both components are lower-casings of source tokens. -/
theorem aliasFold_entries (cat : List (String × List String))
    (ms : List FJMatch) :
    ∀ e ∈ aliasFold cat ms,
      containsKey cat e.2 = true ∧ (∃ w, e.2 = lowerStr w) ∧ (∃ w, e.1 = lowerStr w) := by
  apply foldlInv ms (aliasStep cat)
    (fun m => ∀ e ∈ m,
      containsKey cat e.2 = true ∧ (∃ w, e.2 = lowerStr w) ∧ (∃ w, e.1 = lowerStr w))
  · intro m fm _ hm e he
    revert he
    unfold aliasStep
    by_cases hc : containsKey cat (lowerStr fm.table) = true
    · simp only [if_pos hc]
      intro he
      rcases List.mem_cons.mp he with rfl | hold
      · exact ⟨hc, ⟨fm.table, rfl⟩, ⟨fm.aliasTok.getD fm.table, rfl⟩⟩
      · exact hm e hold
    · simp only [if_neg hc]
      exact hm e
  · intro e he; cases he

/-- A successful alias lookup returns an entry of the map. -/
theorem lookupAlias_mem (m : List (String × String)) (a t : String)
    (h : lookupAlias m a = some t) : ∃ e ∈ m, e.2 = t := by
  unfold lookupAlias at h
  cases hf : m.find? (fun e => e.1 = a) with
  | none => rw [hf] at h; cases h
  | some e =>
    rw [hf] at h
    exact ⟨e, List.mem_of_find?_eq_some hf, by simpa using h⟩

/-- Matches over tables absent from the catalog contribute nothing to the
alias map. -/
theorem aliasFold_filter (cat : List (String × List String)) :
    ∀ (ms : List FJMatch) (m0 : List (String × String)),
      ms.foldl (aliasStep cat) m0
        = (ms.filter (fun fm => containsKey cat (lowerStr fm.table))).foldl
            (aliasStep cat) m0 := by
  intro ms
  induction ms with
  | nil => intro m0; rfl
  | cons fm ms ih =>
    intro m0
    by_cases hc : containsKey cat (lowerStr fm.table) = true
    · simp only [List.foldl_cons, List.filter_cons, hc, if_true]
      exact ih _
    · have hstep : aliasStep cat m0 fm = m0 := by
        unfold aliasStep
        simp [if_neg hc]
      simp only [List.foldl_cons, List.filter_cons, hc, if_false, hstep]
      exact ih _

/-- An alias registered by some step stays in the map's domain. -/
theorem lookupAlias_isSome_step (cat : List (String × List String))
    (m : List (String × String)) (fm : FJMatch) (k : String)
    (h : (lookupAlias m k).isSome = true) :
    (lookupAlias (aliasStep cat m fm) k).isSome = true := by
  unfold aliasStep
  by_cases hc : containsKey cat (lowerStr fm.table) = true
  · simp only [if_pos hc]
    unfold lookupAlias at h ⊢
    rw [List.find?_cons]
    by_cases hk : lowerStr (fm.aliasTok.getD fm.table) = k <;> simp [hk, h]
  · simp only [if_neg hc]
    exact h

/-- Every match whose table is a catalog key leaves its alias in the final
map's domain. -/
theorem aliasFold_dom (cat : List (String × List String)) :
    ∀ (ms : List FJMatch) (m0 : List (String × String)) (fm : FJMatch),
      fm ∈ ms → containsKey cat (lowerStr fm.table) = true →
      (lookupAlias (ms.foldl (aliasStep cat) m0)
        (lowerStr (fm.aliasTok.getD fm.table))).isSome = true := by
  intro ms
  induction ms with
  | nil => intro m0 fm h; cases h
  | cons g ms ih =>
    intro m0 fm hmem hc
    rcases List.mem_cons.mp hmem with rfl | htail
    · rw [List.foldl_cons]
      apply foldlInv ms (aliasStep cat)
        (fun m => (lookupAlias m (lowerStr (fm.aliasTok.getD fm.table))).isSome = true)
      · intro m g' _ hP
        exact lookupAlias_isSome_step cat m g' _ hP
      · unfold aliasStep
        simp only [if_pos hc]
        unfold lookupAlias
        rw [List.find?_cons]
        simp
    · rw [List.foldl_cons]
      exact ih _ fm htail hc

/-- Edges added by `emitForCol` come from the given source list and carry the
column's alias and type; existing edges are preserved. -/
theorem emitForCol_mem (target : String) (col : OutCol)
    (srcs : List (String × String))
    (st : List Edge × List (String × String × String × String)) :
    ∀ e ∈ (emitForCol target col srcs st).1,
      e ∈ st.1 ∨ ∃ tc ∈ srcs, e = ⟨tc.1, tc.2, target, col.calias, col.etype⟩ := by
  apply foldlInv srcs (emitStep target col)
    (fun st2 => ∀ e ∈ st2.1,
      e ∈ st.1 ∨ ∃ tc ∈ srcs, e = ⟨tc.1, tc.2, target, col.calias, col.etype⟩)
  · intro st2 tc htc hP e he
    revert he
    unfold emitStep
    by_cases hk : (tc.1, tc.2, target, col.calias) ∈ st2.2
    · simp only [if_pos hk]
      exact hP e
    · simp only [if_neg hk]
      intro he
      rcases List.mem_append.mp he with hold | hnew
      · exact hP e hold
      · rcases List.mem_singleton.mp hnew with rfl
        exact Or.inr ⟨tc, htc, rfl⟩
  · intro e he
    exact Or.inl he

/-- Every edge produced by `parse` arises from one extracted output column
and one pair resolved against the alias map of the normalized SQL. -/
theorem parse_mem (p : LineageParser) (target sql : String) :
    ∀ e ∈ p.parse target sql,
      ∃ col ∈ extractColumns (pyNormalize sql),
        ∃ tc ∈ resolve p.catalog col.refs (buildAliasMap p.catalog (pyNormalize sql)),
          e = ⟨tc.1, tc.2, target, col.calias, col.etype⟩ := by
  unfold LineageParser.parse
  intro e he
  have h := foldlInv (extractColumns (pyNormalize sql))
    (parseStep p.catalog (buildAliasMap p.catalog (pyNormalize sql)) target)
    (fun st => ∀ e ∈ st.1,
      ∃ col ∈ extractColumns (pyNormalize sql),
        ∃ tc ∈ resolve p.catalog col.refs (buildAliasMap p.catalog (pyNormalize sql)),
          e = ⟨tc.1, tc.2, target, col.calias, col.etype⟩)
    ?_ ([], []) ?_
  · exact h e he
  · intro st col hcol hP e' he'
    unfold parseStep at he'
    rcases emitForCol_mem target col
      (resolve p.catalog col.refs (buildAliasMap p.catalog (pyNormalize sql))) st e' he' with
      hold | ⟨tc, htc, rfl⟩
    · exact hP e' hold
    · exact ⟨col, hcol, tc, htc, rfl⟩
  · intro e' he'
    cases he'

/-- The alias of every extracted output column is the lower-casing of some
token (the literal `unknown` is its own lower-casing). -/
theorem extractColumns_calias (sql : String) :
    ∀ col ∈ extractColumns sql, ∃ w, col.calias = lowerStr w := by
  intro col hcol
  unfold extractColumns at hcol
  revert hcol
  cases selectFromSpan sql.data with
  | none => intro h; cases h
  | some inner =>
    simp only
    intro hcol
    rcases List.mem_filterMap.mp hcol with ⟨part0, _, hpart⟩
    revert hpart
    by_cases hempty : trimWsL part0 = []
    · simp [hempty]
    · simp only [if_neg hempty]
      cases asAliasSplit false (trimWsL part0) with
      | some pt =>
        intro hpart
        cases hpart
        exact ⟨⟨pt.2⟩, rfl⟩
      | none =>
        simp only
        cases hruns : (wordRuns (trimWsL part0)).getLast? with
        | some t =>
          intro hpart
          cases hpart
          simp only [hruns]
          exact ⟨⟨t⟩, rfl⟩
        | none =>
          intro hpart
          cases hpart
          simp only [hruns]
          exact ⟨"unknown", by decide⟩

/-- The parse state invariant: the `seen` set is exactly the list of
quadruples of the emitted edges, without duplicates. -/
def ParseStInv (st : List Edge × List (String × String × String × String)) : Prop :=
  st.2 = st.1.map edgeQuad ∧ st.2.Nodup

/-- `emitStep` preserves the parse state invariant. -/
theorem emitStep_inv (target : String) (col : OutCol)
    (st2 : List Edge × List (String × String × String × String))
    (tc : String × String) (h : ParseStInv st2) :
    ParseStInv (emitStep target col st2 tc) := by
  unfold emitStep
  by_cases hk : (tc.1, tc.2, target, col.calias) ∈ st2.2
  · simpa [if_pos hk] using h
  · simp only [if_neg hk]
    constructor
    · show st2.2 ++ [(tc.1, tc.2, target, col.calias)]
        = (st2.1 ++ [Edge.mk tc.1 tc.2 target col.calias col.etype]).map edgeQuad
      rw [List.map_append, ← h.1]
      rfl
    · show (st2.2 ++ [(tc.1, tc.2, target, col.calias)]).Nodup
      simp [List.nodup_append, List.disjoint_singleton, hk, h.2]

/-- `parseStep` preserves the parse state invariant. -/
theorem parseStep_inv (cat : List (String × List String))
    (am : List (String × String)) (target : String)
    (st : List Edge × List (String × String × String × String)) (col : OutCol)
    (h : ParseStInv st) : ParseStInv (parseStep cat am target st col) := by
  unfold parseStep emitForCol
  exact foldlInv (resolve cat col.refs am) (emitStep target col) ParseStInv
    (fun st2 tc _ => emitStep_inv target col st2 tc) st h

/-! ## Claim theorems -/

/-- The C1 resolution index: tables `employees(employee_id, salary)` and
`jobs(job_id, min_salary, max_salary)`. -/
def c1cat : List (String × List String) :=
  [("employees", ["employee_id", "salary"]),
   ("jobs", ["job_id", "min_salary", "max_salary"])]

/-- The C1 view definition. -/
def c1sql : String :=
  "SELECT e.employee_id AS employee_id, ROUND((e.salary-j.min_salary)/(j.max_salary-j.min_salary)*100,1) AS pct FROM employees e JOIN jobs j ON e.job_id=j.job_id"

set_option maxRecDepth 20000 in
/-- C1: parsing `v_grades` over the employees/jobs index returns exactly the
four claimed edges: `employees.employee_id → v_grades.employee_id` (direct)
and `employees.salary`, `jobs.min_salary`, `jobs.max_salary` each feeding
`v_grades.pct` (computed). -/
theorem claim_C1 :
    (LineageParser.init c1cat).parse "v_grades" c1sql =
      [Edge.mk "employees" "employee_id" "v_grades" "employee_id" "direct",
       Edge.mk "employees" "salary" "v_grades" "pct" "computed",
       Edge.mk "jobs" "min_salary" "v_grades" "pct" "computed",
       Edge.mk "jobs" "max_salary" "v_grades" "pct" "computed"] := by
  decide

/-- C7: within a single parse call no two edges share the quadruple
(source object, source column, target object, target column). -/
theorem claim_C7 : ∀ (p : LineageParser) (target sql : String),
    ((p.parse target sql).map edgeQuad).Nodup := by
  intro p target sql
  unfold LineageParser.parse
  have h := foldlInv (extractColumns (pyNormalize sql))
    (parseStep p.catalog (buildAliasMap p.catalog (pyNormalize sql)) target)
    ParseStInv (fun st col _ => parseStep_inv _ _ _ st col) ([], []) ⟨rfl, List.nodup_nil⟩
  rw [← h.1]
  exact h.2

set_option maxRecDepth 20000 in
/-- C8: the select list is split on top-level commas only — concretely,
`ROUND(a.x, 2) AS y` stays one part and is extracted as the single output
column `y`; in general the number of parts is determined by the number of
depth-0 commas alone. -/
theorem claim_C8 :
    splitCsv "ROUND(a.x, 2) AS y" = ["ROUND(a.x, 2) AS y"]
    ∧ extractColumns "SELECT ROUND(a.x, 2) AS y FROM t"
        = [OutCol.mk "y" [("a", "x")] "computed"]
    ∧ ∀ text : String,
        (splitCsv text).length =
          topCommaCount 0 text.data
            + (if text.data = [] ∨ endsTopComma 0 text.data = true then 0 else 1) := by
  refine ⟨by decide, by decide, ?_⟩
  intro text
  show ((splitCsvAux 0 [] text.data).map _).length = _
  rw [List.length_map, splitCsvAux_length]
  congr 1
  apply if_congr _ rfl rfl
  simp

/-- C10: joining the parts returned by `_split_csv` with `,` reconstructs
the input exactly, except that an input ending in a top-level comma loses
only that trailing comma (its empty final segment is dropped). -/
theorem claim_C10 : ∀ text : String,
    (endsTopComma 0 text.data = false → joinComma (splitCsv text) = text)
    ∧ (endsTopComma 0 text.data = true → joinComma (splitCsv text) ++ "," = text) := by
  intro text
  constructor
  · intro h
    have h2 := (splitCsvAux_joinC text.data 0 []).2 h
    simp only [List.reverse_nil, List.nil_append] at h2
    show joinComma ((splitCsvAux 0 [] text.data).map (fun l => (⟨l⟩ : String))) = text
    rw [joinComma_map, h2]
  · intro h
    have h2 := (splitCsvAux_joinC text.data 0 []).1 h
    simp only [List.reverse_nil, List.nil_append] at h2
    show joinComma ((splitCsvAux 0 [] text.data).map (fun l => (⟨l⟩ : String))) ++ ","
      = text
    rw [joinComma_map, show ("," : String) = (⟨[',']⟩ : String) from rfl, strMk_append, h2]

/-- Witness for C10 at a concrete input with a nested comma. -/
theorem claim_C10_witness :
    endsTopComma 0 ("a,(b,c)" : String).data = false
    ∧ joinComma (splitCsv "a,(b,c)") = "a,(b,c)" :=
  ⟨by decide, (claim_C10 "a,(b,c)").1 (by decide)⟩

/-- C4: the alias map registers `alias → table` exactly for the scanned
`FROM`/`JOIN` matches whose table is a catalog key: matches with absent
tables contribute nothing (folding over the filtered match list yields the
same map), every registered value is a catalog key, and every present match
leaves its alias — the alias token if present, otherwise the table name
itself — in the final map's domain. -/
theorem claim_C4 : ∀ (cat : List (String × List String)) (sql : String),
    buildAliasMap cat sql
      = aliasFold cat ((scanFJ sql).filter (fun fm => containsKey cat (lowerStr fm.table)))
    ∧ (∀ a t, lookupAlias (buildAliasMap cat sql) a = some t → containsKey cat t = true)
    ∧ ∀ fm ∈ scanFJ sql, containsKey cat (lowerStr fm.table) = true →
        (lookupAlias (buildAliasMap cat sql)
          (lowerStr (fm.aliasTok.getD fm.table))).isSome = true := by
  intro cat sql
  refine ⟨aliasFold_filter cat (scanFJ sql) [], ?_, ?_⟩
  · intro a t h
    rcases lookupAlias_mem _ _ _ h with ⟨e, hmem, rfl⟩
    exact (aliasFold_entries cat (scanFJ sql) e hmem).1
  · intro fm hmem hc
    exact aliasFold_dom cat (scanFJ sql) [] fm hmem hc

/-- The catalog for the C4 witness. -/
def c4wcat : List (String × List String) := [("employees", ["id"])]

set_option maxRecDepth 20000 in
/-- Witness for C4: `FROM employees e` registers alias `e`. -/
theorem claim_C4_witness :
    (FJMatch.mk "employees" (some "e")) ∈ scanFJ "FROM employees e"
    ∧ containsKey c4wcat (lowerStr "employees") = true
    ∧ (lookupAlias (buildAliasMap c4wcat "FROM employees e")
        (lowerStr ((some "e").getD "employees"))).isSome = true :=
  ⟨by decide, by decide,
    (claim_C4 c4wcat "FROM employees e").2.2 (FJMatch.mk "employees" (some "e"))
      (by decide) (by decide)⟩

/-- C5: the classifier assigns the edge type by first match in the fixed
precedence order aggregate, case, concat, computed, direct; in particular
any expression passing the aggregate test is classified `aggregate` and
never `case`. -/
theorem claim_C5 : ∀ expr : String,
    (fnHitAux aggKws false (upperStr expr).data = true →
      classifyExpr expr = "aggregate" ∧ classifyExpr expr ≠ "case")
    ∧ (fnHitAux aggKws false (upperStr expr).data = false →
        subHit ['C','A','S','E'] (upperStr expr).data = true →
        classifyExpr expr = "case")
    ∧ (fnHitAux aggKws false (upperStr expr).data = false →
        subHit ['C','A','S','E'] (upperStr expr).data = false →
        subHit ['|','|'] expr.data = true →
        classifyExpr expr = "concat")
    ∧ (fnHitAux aggKws false (upperStr expr).data = false →
        subHit ['C','A','S','E'] (upperStr expr).data = false →
        subHit ['|','|'] expr.data = false →
        fnHitAux compKws false (upperStr expr).data = true →
        classifyExpr expr = "computed")
    ∧ (fnHitAux aggKws false (upperStr expr).data = false →
        subHit ['C','A','S','E'] (upperStr expr).data = false →
        subHit ['|','|'] expr.data = false →
        fnHitAux compKws false (upperStr expr).data = false →
        classifyExpr expr = "direct") := by
  intro expr
  refine ⟨fun h1 => ⟨?_, ?_⟩, fun h1 h2 => ?_, fun h1 h2 h3 => ?_,
    fun h1 h2 h3 h4 => ?_, fun h1 h2 h3 h4 => ?_⟩ <;>
    simp [classifyExpr, h1]
  · simp [h2]
  · simp [h2, h3]
  · simp [h2, h3, h4]
  · simp [h2, h3, h4]

/-- Witness for C5: `SUM(x) CASE` contains both an aggregate call and the
`CASE` keyword and is classified `aggregate`, not `case`. -/
theorem claim_C5_witness :
    fnHitAux aggKws false (upperStr "SUM(x) CASE").data = true
    ∧ classifyExpr "SUM(x) CASE" = "aggregate"
    ∧ classifyExpr "SUM(x) CASE" ≠ "case" :=
  ⟨by decide, (claim_C5 "SUM(x) CASE").1 (by decide)⟩

/-- C6: every emitted edge is fully resolved — its source object is the
image of a registered alias and its source column belongs to that object's
column set in the resolution index; concretely, a select over the
unregistered `FROM unknown_tbl u` yields no edges at all. -/
theorem claim_C6 :
    (∀ (p : LineageParser) (target sql : String), ∀ e ∈ p.parse target sql,
      (∃ a, lookupAlias (buildAliasMap p.catalog (pyNormalize sql)) a = some e.source_node)
      ∧ ∃ cols, dictLookup p.catalog e.source_node = some cols ∧ e.source_column ∈ cols)
    ∧ (LineageParser.init [("known", ["col"])]).parse "t"
        "SELECT u.col AS c FROM unknown_tbl u" = [] := by
  constructor
  · intro p target sql e he
    rcases parse_mem p target sql e he with ⟨col, hcol, tc, htc, rfl⟩
    rcases resolve_mem p.catalog col.refs _ tc htc with ⟨⟨a, ha⟩, ⟨cols, hd, hin⟩, _⟩
    exact ⟨⟨a, ha⟩, cols, hd, hin⟩
  · decide

/-- The parser for the C6 witness. -/
def c6wp : LineageParser := LineageParser.init [("emp", ["id"])]

set_option maxRecDepth 20000 in
/-- Witness for C6: the single edge of `SELECT a.id AS x FROM emp a`
resolves against the index. -/
theorem claim_C6_witness :
    (Edge.mk "emp" "id" "v" "x" "direct") ∈ c6wp.parse "v" "SELECT a.id AS x FROM emp a"
    ∧ ∃ cols, dictLookup c6wp.catalog "emp" = some cols ∧ "id" ∈ cols :=
  ⟨by decide,
    (claim_C6.1 c6wp "v" "SELECT a.id AS x FROM emp a"
      (Edge.mk "emp" "id" "v" "x" "direct") (by decide)).2⟩

/-- Replace an object's SQL text. -/
def withSqlMapped (f : Option String → Option String) (o : DbObject) : DbObject :=
  ⟨o.name, o.otype, o.columns, f o.sql⟩

/-- Replace the SQL text of every object of a catalog snapshot. -/
def mapSqlObjs (f : Option String → Option String) (objs : AllObjects) : AllObjects :=
  ⟨objs.tables.map (withSqlMapped f), objs.views.map (withSqlMapped f),
   objs.stored_procedures.map (withSqlMapped f)⟩

/-- C2: with a non-empty explicit lineage list the run's edge set is exactly
the converted explicit list, the warnings list is empty, and the result is
invariant under arbitrary changes to every object's SQL text — the parser is
never consulted. -/
theorem claim_C2 : ∀ (objs : AllObjects) (explicit : List ExplicitEdge),
    explicit ≠ [] →
    (runLineageJson objs explicit).1.edges.map Prod.snd = explicit.map convertExplicit
    ∧ (runLineageJson objs explicit).2 = []
    ∧ ∀ f : Option String → Option String,
        runLineageJson (mapSqlObjs f objs) explicit = runLineageJson objs explicit := by
  intro objs explicit h
  have hrun : ∀ o : AllObjects, runLineageJson o explicit
      = (build_graph o (explicit.map convertExplicit), []) := by
    intro o
    unfold runLineageJson
    rw [if_pos h]
  refine ⟨?_, ?_, ?_⟩
  · rw [hrun]
    show ((explicit.map convertExplicit).enum.map
      (fun p => ("e" ++ toString p.1, p.2))).map Prod.snd = _
    rw [List.map_map]
    have hcomp : (Prod.snd ∘ fun p : Nat × Edge => ("e" ++ toString p.1, p.2))
        = Prod.snd := rfl
    rw [hcomp, List.enum_map_snd]
  · rw [hrun]
  · intro f
    rw [hrun, hrun]
    have hnodes : ((mapSqlObjs f objs).tables ++ (mapSqlObjs f objs).views
        ++ (mapSqlObjs f objs).stored_procedures).map
          (fun o => GraphNode.mk o.name o.name o.otype o.columns)
        = (objs.tables ++ objs.views ++ objs.stored_procedures).map
          (fun o => GraphNode.mk o.name o.name o.otype o.columns) := by
      show ((objs.tables.map (withSqlMapped f)) ++ (objs.views.map (withSqlMapped f))
        ++ (objs.stored_procedures.map (withSqlMapped f))).map _ = _
      rw [← List.map_append, ← List.map_append, List.map_map]
      apply List.map_congr_left
      intro o _
      cases o
      rfl
    show (Graph.mk _ _, ([] : List String)) = (Graph.mk _ _, ([] : List String))
    rw [hnodes]

/-- Objects for the C2 witness. -/
def c2wobjs : AllObjects :=
  ⟨[DbObject.mk "x" "table" [ColumnD.mk "c1" "TEXT" false] none],
   [DbObject.mk "y" "view" [] (some "SELECT t.c1 AS c2 FROM x t")], []⟩

/-- Explicit lineage for the C2 witness. -/
def c2wexpl : List ExplicitEdge :=
  [ExplicitEdge.mk (some "x") none (some "C1") (some "y") none (some "C2") none]

/-- Witness for C2: the one explicit edge is the whole edge set even though
the connector also supplied SQL for `y`. -/
theorem claim_C2_witness :
    c2wexpl ≠ []
    ∧ (runLineageJson c2wobjs c2wexpl).1.edges.map Prod.snd = c2wexpl.map convertExplicit :=
  ⟨by decide, (claim_C2 c2wobjs c2wexpl (by decide)).1⟩

/-- Objects for the C3 counterexample run. -/
def c3objs : AllObjects :=
  ⟨[DbObject.mk "emp" "table" [ColumnD.mk "x" "TEXT" false] none], [], []⟩

/-- Explicit lineage for the C3 counterexample run: upper-case object names
survive conversion verbatim. -/
def c3expl : List ExplicitEdge :=
  [ExplicitEdge.mk (some "EMP") none (some "X") (some "V") none (some "Y") none]

/-- Counterexample to C3: a produced graph whose edge has `source_object`
`EMP` and `target_object` `V`, neither of which is lower-cased. -/
theorem claim_C3_counterexample :
    ¬ (∀ pe ∈ (runLineageJson c3objs c3expl).1.edges,
        lowerStr pe.2.source_node = pe.2.source_node
        ∧ lowerStr pe.2.source_column = pe.2.source_column
        ∧ lowerStr pe.2.target_node = pe.2.target_node
        ∧ lowerStr pe.2.target_column = pe.2.target_column) := by
  decide

/-- C3 as amended: every parse-produced edge has `source_object`,
`source_column` and `target_column` lower-cased while `target_object` is the
caller-supplied target name verbatim; every explicit-list edge has
`source_column` and `target_column` lower-cased (its object fields are
taken verbatim). -/
theorem claim_C3_amended :
    (∀ (p : LineageParser) (target sql : String), ∀ e ∈ p.parse target sql,
      (∃ w, e.source_node = lowerStr w) ∧ (∃ w, e.source_column = lowerStr w)
      ∧ e.target_node = target ∧ (∃ w, e.target_column = lowerStr w))
    ∧ ∀ ex : ExplicitEdge,
      (∃ w, (convertExplicit ex).source_column = lowerStr w)
      ∧ (∃ w, (convertExplicit ex).target_column = lowerStr w) := by
  constructor
  · intro p target sql e he
    rcases parse_mem p target sql e he with ⟨col, hcol, tc, htc, rfl⟩
    rcases resolve_mem p.catalog col.refs _ tc htc with ⟨⟨a, ha⟩, _, ⟨w2, hw2⟩⟩
    refine ⟨?_, ⟨w2, hw2⟩, rfl, extractColumns_calias _ col hcol⟩
    rcases lookupAlias_mem _ _ _ ha with ⟨en, hmem, hval⟩
    rcases (aliasFold_entries p.catalog _ en hmem).2.1 with ⟨w, hw⟩
    exact ⟨w, by rw [← hval]; exact hw⟩
  · intro ex
    exact ⟨⟨ex.source_column.getD "", rfl⟩, ⟨ex.target_column.getD "", rfl⟩⟩

/-- The parser for the C3 witness. -/
def c3wp : LineageParser := LineageParser.init [("emp", ["id"])]

set_option maxRecDepth 20000 in
/-- Witness for the amended C3 at a concrete parse. -/
theorem claim_C3_amended_witness :
    (Edge.mk "emp" "id" "v" "x" "direct") ∈ c3wp.parse "v" "SELECT a.id AS x FROM emp a"
    ∧ ∃ w, (Edge.mk "emp" "id" "v" "x" "direct").source_node = lowerStr w :=
  ⟨by decide,
    (claim_C3_amended.1 c3wp "v" "SELECT a.id AS x FROM emp a"
      (Edge.mk "emp" "id" "v" "x" "direct") (by decide)).1⟩

/-- C9: when parsing fails for exactly one of three derived objects, the run
still returns the other two objects' edges plus exactly one warning naming
the failing object with the failure description; the aggregation is a total
function of its inputs, so the run never aborts once the catalog is
obtained. -/
theorem claim_C9 : ∀ (pf : String → String → Except String (List Edge))
    (o1 o2 o3 : DbObject) (s1 s2 s3 : String) (e1 e3 : List Edge) (msg : String),
    o1.sql = some s1 → s1 ≠ "" → pf o1.name s1 = .ok e1 →
    o2.sql = some s2 → s2 ≠ "" → pf o2.name s2 = .error msg →
    o3.sql = some s3 → s3 ≠ "" → pf o3.name s3 = .ok e3 →
    aggregateEdges pf [o1, o2, o3] = (e1 ++ e3, [o2.name ++ ": " ++ msg]) := by
  intro pf o1 o2 o3 s1 s2 s3 e1 e3 msg h1 h1n h1p h2 h2n h2p h3 h3n h3p
  have hs1 : aggStep pf ([], []) o1 = (e1, []) := by
    unfold aggStep
    rw [h1]
    simp only [if_neg h1n, h1p]
    simp
  have hs2 : aggStep pf (e1, []) o2 = (e1, [o2.name ++ ": " ++ msg]) := by
    unfold aggStep
    rw [h2]
    simp only [if_neg h2n, h2p]
    simp
  have hs3 : aggStep pf (e1, [o2.name ++ ": " ++ msg]) o3
      = (e1 ++ e3, [o2.name ++ ": " ++ msg]) := by
    unfold aggStep
    rw [h3]
    simp only [if_neg h3n, h3p]
  show List.foldl (aggStep pf) ([], []) [o1, o2, o3] = _
  rw [List.foldl_cons, hs1, List.foldl_cons, hs2, List.foldl_cons, hs3, List.foldl_nil]

/-- The failing parse function for the C9 witness. -/
def c9pf : String → String → Except String (List Edge) :=
  fun n _ => if n = "b" then .error "boom" else .ok []

/-- The three derived objects for the C9 witness; only `b` fails. -/
def c9o1 : DbObject := DbObject.mk "a" "view" [] (some "S1")

/-- Second object of the C9 witness. -/
def c9o2 : DbObject := DbObject.mk "b" "view" [] (some "S2")

/-- Third object of the C9 witness. -/
def c9o3 : DbObject := DbObject.mk "c" "view" [] (some "S3")

/-- Witness for C9: the run keeps the first and third objects' edges and
records exactly one warning naming `b`. -/
theorem claim_C9_witness :
    aggregateEdges c9pf [c9o1, c9o2, c9o3] = ([] ++ [], ["b" ++ ": " ++ "boom"]) :=
  claim_C9 c9pf c9o1 c9o2 c9o3 "S1" "S2" "S3" [] [] "boom"
    rfl (by decide) rfl rfl (by decide) rfl rfl (by decide) rfl
